import Mathlib

/-!
Verification of the path-to-tree materialization engine of tsv2mods
(src/tsv2mods.py) against its specification.

Modelling conventions:
* A Python string is modelled as a list of characters (PyStr).  All Python
  string primitives that the program uses (single-character str.split,
  str.strip with a character set, substring containment, str.join) are
  reimplemented structurally so that every definition evaluates by rfl.
* An XML element (xml.etree / lxml Element) is the mutual inductive Elem /
  ElemList: tag, attribute list in insertion order (attribute values are
  Option PyStr because the program can store Python None as an attribute
  value), optional text, and the ordered child list.  Tails are never set by
  the program and are omitted.
* In-place mutation of the per-row tree is modelled by explicit state
  passing; a node handle is its address: the list of child indices from the
  root.
* A Python exception is modelled by Except PyError; keyError models the
  KeyError raised by the namespace lookup, valueError the ValueError of
  tuple unpacking of str.split results, indexError the IndexError of
  indexing an empty string or list, pathError a SyntaxError raised by
  ElementTree path parsing.
-/

namespace Tsv2Mods

/-- A Python string: a list of characters. -/
abbrev PyStr := List Char

/-- The double-quote character. -/
def quoteCh : Char := Char.ofNat 34

/-- The single-quote character. -/
def aposCh : Char := Char.ofNat 39

/-- The opening-brace character used by ElementTree Clark notation. -/
def braceL : Char := Char.ofNat 123

/-- The closing-brace character used by ElementTree Clark notation. -/
def braceR : Char := Char.ofNat 125

/-- Python s.split(sep) for a single-character separator sep.
Mirrors: "a:b".split(":") = ["a","b"], ":".split(":") = ["",""],
"".split(":") = [""]. -/
def splitCh (sep : Char) : PyStr → List PyStr
  | [] => [[]]
  | c :: cs =>
    if c == sep then [] :: splitCh sep cs
    else
      match splitCh sep cs with
      | [] => [[c]]
      | t :: ts => (c :: t) :: ts

/-- Python sep.join(parts) for a single-character separator. -/
def joinSep (sep : Char) : List PyStr → PyStr
  | [] => []
  | [x] => x
  | x :: xs => x ++ sep :: joinSep sep xs

/-- Prepend a character onto the first token of a token list. -/
def consHead (c : Char) : List PyStr → List PyStr
  | [] => [[c]]
  | t :: ts => (c :: t) :: ts

/-- The slash-splitting that ElementTree's xpath tokenizer performs on a
search path: a slash separates steps, but a brace group (Clark notation,
whose URI may itself contain slashes) is consumed atomically.  The Bool
argument is the inside-a-brace-group state.  This models the tokenizer on
the strings make_searchable can emit: at most one brace group at a time
(resolved names carry exactly one, and quoted attribute values cannot
contain a slash because every path part was produced by splitting the
header field on slashes). -/
def splitSlash : Bool → PyStr → List PyStr
  | _, [] => [[]]
  | true, c :: cs => consHead c (splitSlash (!(c == braceR)) cs)
  | false, c :: cs =>
    if c == '/' then [] :: splitSlash false cs
    else consHead c (splitSlash (c == braceL) cs)

/-- Whether the first list is an initial run of the second. -/
def leadMatch : PyStr → PyStr → Bool
  | [], _ => true
  | _ :: _, [] => false
  | p :: ps, c :: cs => p == c && leadMatch ps cs

/-- Python substring containment: pat in s. -/
def hasSub (pat : PyStr) : PyStr → Bool
  | [] => leadMatch pat []
  | c :: cs => leadMatch pat (c :: cs) || hasSub pat cs

/-- Python s.strip(chars) / s.lstrip(chars).rstrip(chars): removes leading
and trailing characters satisfying the predicate. -/
def stripEnds (p : Char → Bool) (s : PyStr) : PyStr :=
  ((s.dropWhile p).reverse.dropWhile p).reverse

/-- The exceptions the modelled code can raise. -/
inductive PyError where
  | keyError (k : PyStr)
  | valueError
  | indexError
  | pathError
deriving DecidableEq

/-- The MODS namespace URI. -/
def modsURI : PyStr := "http://www.loc.gov/mods/v3".data

/-- The xlink namespace URI. -/
def xlinkURI : PyStr := "http://www.w3.org/1999/xlink".data

/-- The static prefix-to-URI table (module-level global namespaces). -/
def nsTable : List (PyStr × PyStr) := [("mods".data, modsURI), ("xlink".data, xlinkURI)]

/-- Dictionary lookup namespaces[key]. -/
def nsLookup (k : PyStr) : Option PyStr :=
  (nsTable.find? (fun p => p.1 == k)).map (fun p => p.2)

/-- add_namespaces (src/tsv2mods.py lines 219-225): if the token contains a
colon, split on it (exactly two parts, else the tuple unpacking raises
ValueError), look the key up in the namespaces dict (a missing key raises
KeyError), and return Clark notation; otherwise return the token
unchanged. -/
def add_namespaces (obj : PyStr) : Except PyError PyStr :=
  if obj.any (fun c => c == ':') then
    match splitCh ':' obj with
    | [key, element] =>
      match nsLookup key with
      | some uri => .ok (braceL :: uri ++ braceR :: element)
      | none => .error (.keyError key)
    | _ => .error .valueError
  else .ok obj

mutual
/-- An XML element: tag, attributes in insertion order (value Option to model
Python None stored as a value), optional text, ordered children. -/
inductive Elem where
  | mk (tag : PyStr) (attrs : List (PyStr × Option PyStr)) (text : Option PyStr)
      (children : ElemList)

/-- An ordered list of elements (spelled out so that recursion over the tree
is structural). -/
inductive ElemList where
  | nil
  | cons (e : Elem) (es : ElemList)
end

/-- The tag of an element. -/
def Elem.tag : Elem → PyStr
  | .mk t _ _ _ => t

/-- The attribute list of an element. -/
def Elem.attrs : Elem → List (PyStr × Option PyStr)
  | .mk _ a _ _ => a

/-- The text of an element. -/
def Elem.text : Elem → Option PyStr
  | .mk _ _ x _ => x

/-- The children of an element. -/
def Elem.children : Elem → ElemList
  | .mk _ _ _ c => c

/-- Number of children. -/
def ElemList.length : ElemList → Nat
  | .nil => 0
  | .cons _ es => es.length + 1

/-- Child at an index. -/
def ElemList.get? : ElemList → Nat → Option Elem
  | .nil, _ => none
  | .cons e _, 0 => some e
  | .cons _ es, n + 1 => es.get? n

/-- Append an element at the end of a child list. -/
def ElemList.push : ElemList → Elem → ElemList
  | .nil, e => .cons e .nil
  | .cons x xs, e => .cons x (xs.push e)

/-- Replace the element at an index. -/
def ElemList.set : ElemList → Nat → Elem → ElemList
  | .nil, _, _ => .nil
  | .cons _ xs, 0, e => .cons e xs
  | .cons x xs, n + 1, e => .cons x (xs.set n e)

/-- The node of a tree at an address (list of child indices). -/
def nodeAt : Elem → List Nat → Option Elem
  | e, [] => some e
  | e, i :: rest =>
    match e.children.get? i with
    | some c => nodeAt c rest
    | none => none

/-- Append a new child to the node at the given address (models
ET.SubElement(parent, ...) where parent is the node at that address). -/
def appendAt (child : Elem) : List Nat → Elem → Elem
  | [], .mk t a x cs => .mk t a x (cs.push child)
  | i :: rest, .mk t a x cs =>
    match cs.get? i with
    | some e => .mk t a x (cs.set i (appendAt child rest e))
    | none => .mk t a x cs

mutual
/-- Concatenated text content of one element including descendants
(Python "".join(e.itertext()); the program never sets tails). -/
def itertext : Elem → PyStr
  | .mk _ _ t cs => (t.getD []) ++ itertextL cs

/-- Concatenated text content of a list of elements. -/
def itertextL : ElemList → PyStr
  | .nil => []
  | .cons e es => itertext e ++ itertextL es
end

/-- One parsed step of an ElementTree path, as ElementPath interprets the
search strings that make_searchable produces:
tagTok t matches a child with tag t; hasChild t c is the rendering of
t followed by c between square brackets, which ElementPath reads as
"has a child element named c" (not an attribute test, since
make_searchable omits the commercial-at sign); childText t c v likewise
tests for a child c whose full text equals v; hasAttr / attrEq are the
genuine ElementPath attribute forms, included for completeness although
make_searchable never emits them. -/
inductive ETok where
  | tagTok (t : PyStr)
  | hasChild (t : PyStr) (c : PyStr)
  | childText (t : PyStr) (c : PyStr) (v : PyStr)
  | hasAttr (t : PyStr) (a : PyStr)
  | attrEq (t : PyStr) (a : PyStr) (v : PyStr)
deriving DecidableEq

/-- Whether a child list has a direct child with the given tag. -/
def hasChildTag (c : PyStr) : ElemList → Bool
  | .nil => false
  | .cons (.mk tg _ _ _) rest => tg == c || hasChildTag c rest

/-- Whether a child list has a direct child with the given tag whose full
text content equals v. -/
def hasChildTagText (c v : PyStr) : ElemList → Bool
  | .nil => false
  | .cons (.mk tg _ tx cc) rest =>
    (tg == c && ((tx.getD []) ++ itertextL cc) == v) || hasChildTagText c v rest

/-- First attribute value stored under a key. -/
def attrLookup (a : PyStr) : List (PyStr × Option PyStr) → Option (Option PyStr)
  | [] => none
  | (k, v) :: rest => if k == a then some v else attrLookup a rest

/-- Whether one element satisfies one path step. -/
def matchTok : ETok → Elem → Bool
  | .tagTok t, .mk tg _ _ _ => tg == t
  | .hasChild t c, .mk tg _ _ cc => tg == t && hasChildTag c cc
  | .childText t c v, .mk tg _ _ cc => tg == t && hasChildTagText c v cc
  | .hasAttr t a, .mk tg ar _ _ => tg == t && (attrLookup a ar).isSome
  | .attrEq t a v, .mk tg ar _ _ => tg == t && (attrLookup a ar == some (some v))

/-- ElementTree find over a sibling list: first match in document order of a
chain of path steps, each step descending one child level.  Returns the
address of the match relative to the sibling list. -/
def findPath : List ETok → ElemList → Option (List Nat)
  | _, .nil => none
  | [], .cons _ _ => none
  | t :: ts, .cons (.mk tg ar tx cc) rest =>
    match
      (if matchTok t (.mk tg ar tx cc) then
        match ts with
        | [] => some ([] : List Nat)
        | _ :: _ => findPath ts cc
      else none) with
    | some a => some (0 :: a)
    | none =>
      match findPath (t :: ts) rest with
      | some [] => some []
      | some (i :: r) => some ((i + 1) :: r)
      | none => none

/-- Guard: a plain name usable inside an ElementPath predicate. -/
def goodName (s : PyStr) : Bool :=
  !(s.any (fun c => c == '[' || c == ']' || c == quoteCh || c == aposCh || c == '@' || c == '='))

/-- Guard: a correctly quoted ElementPath string literal. -/
def goodQuoted (v : PyStr) : Bool :=
  match v with
  | c :: (_ :: _) =>
    (c == quoteCh || c == aposCh) && v.getLast? == some c &&
      !(((v.drop 1).dropLast).any (fun x => x == c))
  | _ => false

/-- Drop the surrounding quote characters of a quoted literal. -/
def unq (v : PyStr) : PyStr := (v.drop 1).dropLast

/-- Parse one predicate (the part between square brackets) of one path token,
for the restricted grammar that the program can produce.  A predicate
starting with a commercial-at sign is an attribute test; otherwise a bare
name is a has-child test and name=quoted is a child-text test (ElementPath
semantics).  Purely numeric (positional) predicates and other exotic forms
are outside the modelled subset and map to pathError. -/
def parsePredTok (name pred : PyStr) : Except PyError ETok :=
  match pred with
  | '@' :: attr =>
    if attr.any (fun c => c == '=') then
      match splitCh '=' attr with
      | [a, v] =>
        if goodName a && goodQuoted v then .ok (.attrEq name a (unq v)) else .error .pathError
      | _ => .error .pathError
    else if goodName attr && attr.length > 0 then .ok (.hasAttr name attr)
    else .error .pathError
  | _ =>
    if pred.length > 0 && pred.all Char.isDigit then .error .pathError
    else if pred.any (fun c => c == '=') then
      match splitCh '=' pred with
      | [c, v] =>
        if goodName c && c.length > 0 && goodQuoted v then .ok (.childText name c (unq v))
        else .error .pathError
      | _ => .error .pathError
    else if goodName pred && pred.length > 0 then .ok (.hasChild name pred)
    else .error .pathError

/-- Parse one slash-separated token of an ElementTree path (the restricted
grammar arising from make_searchable: a tag, optionally followed by one
bracketed predicate). -/
def parseTok (s : PyStr) : Except PyError ETok :=
  if s.length == 0 then .error .pathError
  else if !(s.any (fun c => c == '[')) then
    if s.any (fun c => c == ']') then .error .pathError else .ok (.tagTok s)
  else
    match splitCh '[' s with
    | [name, rest] =>
      if name.length > 0 && !(name.any (fun c => c == ']' || c == quoteCh || c == aposCh)) then
        match rest.reverse with
        | ']' :: predRev => parsePredTok name predRev.reverse
        | _ => .error .pathError
      else .error .pathError
    | _ => .error .pathError

/-- Parse every token of a search path, left to right. -/
def parseToks : List PyStr → Except PyError (List ETok)
  | [] => .ok []
  | s :: rest =>
    match parseTok s with
    | .error e => .error e
    | .ok t =>
      match parseToks rest with
      | .error e => .error e
      | .ok ts => .ok (t :: ts)

/-- The per-term body of make_searchable (src/tsv2mods.py lines 195-214):
if the term has a commercial-at sign, split name and attribute expression
(tuple unpacking: exactly two parts or ValueError), split the attribute
expression on the equals sign likewise, strip quotes from the value,
resolve both names, and render the predicate between square brackets;
the commercial-at sign is NOT rendered, and a %value% attribute renders
as a bare bracketed name.  A plain term is only namespace-resolved.  The
greater-than suffix of a term is NOT handled here. -/
def renderTerm (this_term : PyStr) : Except PyError PyStr :=
  if this_term.any (fun c => c == '@') then
    match splitCh '@' this_term with
    | [x, y] =>
      match splitCh '=' y with
      | [a, b] =>
        let b := stripEnds (fun c => c == aposCh || c == quoteCh) b
        match add_namespaces a with
        | .error e => .error e
        | .ok a =>
          match add_namespaces x with
          | .error e => .error e
          | .ok x =>
            if hasSub "%value%".data b then .ok (x ++ '[' :: a ++ [']'])
            else .ok (x ++ '[' :: a ++ '=' :: quoteCh :: b ++ [quoteCh, ']'])
      | _ => .error .valueError
    | _ => .error .valueError
  else add_namespaces this_term

/-- make_searchable's recursion pops the LAST term first; this helper takes
the reversed term list and emits rendered terms in original order. -/
def msAux : List PyStr → Except PyError (List PyStr)
  | [] => .ok []
  | t :: rest =>
    match renderTerm t with
    | .error e => .error e
    | .ok r =>
      match msAux rest with
      | .error e => .error e
      | .ok rs => .ok (rs ++ [r])

/-- make_searchable (src/tsv2mods.py lines 187-216). -/
def make_searchable (terms : List PyStr) : Except PyError (List PyStr) :=
  msAux terms.reverse

/-- Normalisation add_element applies to the incoming row value:
strip spaces, then turn the %blank% sentinel into None. -/
def normVal (v : Option PyStr) : Option PyStr :=
  let v1 := v.map (stripEnds (fun c => c == ' '))
  if v1 == some "%blank%".data then none else v1

/-- The attribute-handling tail of add_element: if an attribute expression
is present, resolve the key, quote-strip the value, and either store the
row value under the key (when the attribute value contains %value%; then
the element text becomes the greater-than literal if present) or store the
literal attribute value (then the element text is the row value); without
an attribute expression the text is the row value and the greater-than
literal is dropped. -/
def addElementCore (element_def : PyStr) (common_element_value element_value : Option PyStr) :
    Except PyError Elem :=
  if element_def.any (fun c => c == '@') then
    match splitCh '@' element_def with
    | [ed, attrib] =>
      match splitCh '=' attrib with
      | [key0, val0] =>
        match add_namespaces key0 with
        | .error e => .error e
        | .ok key =>
          let val := stripEnds (fun c => c == quoteCh || c == aposCh) val0
          if hasSub "%value%".data val then
            match add_namespaces ed with
            | .error e => .error e
            | .ok tg => .ok (.mk tg [(key, element_value)] common_element_value .nil)
          else
            match add_namespaces ed with
            | .error e => .error e
            | .ok tg => .ok (.mk tg [(key, some val)] element_value .nil)
      | _ => .error .valueError
    | _ => .error .valueError
  else
    match add_namespaces element_def with
    | .error e => .error e
    | .ok tg => .ok (.mk tg [] element_value .nil)

/-- The element-construction part of add_element (src/tsv2mods.py lines
151-184): strip and %blank%-filter the value, split off a greater-than
literal suffix (exactly two parts or ValueError), then run the
attribute-handling tail. -/
def buildElement (element_def0 : PyStr) (element_value0 : Option PyStr) :
    Except PyError Elem :=
  let element_value := normVal element_value0
  match
    (if element_def0.any (fun c => c == '>') then
      match splitCh '>' element_def0 with
      | [a, b] => Except.ok (a, some b)
      | _ => Except.error PyError.valueError
    else Except.ok (element_def0, (none : Option PyStr))) with
  | .error e => .error e
  | .ok (element_def, common_element_value) =>
    addElementCore element_def common_element_value element_value

/-- add_element applied at a parent address: build the child element and
append it to the parent's children; the result pairs the new tree with the
address of the new child. -/
def add_elementAt (element_def : PyStr) (tree : Elem) (parentAddr : List Nat)
    (element_value : Option PyStr) : Except PyError (Elem × List Nat) :=
  match buildElement element_def element_value with
  | .error e => .error e
  | .ok child =>
    match nodeAt tree parentAddr with
    | some parent => .ok (appendAt child parentAddr tree, parentAddr ++ [parent.children.length])
    | none => .error .indexError

/-- find_element (src/tsv2mods.py lines 119-148), on the reversed segment
list so that the recursion on the trimmed path (element[:-1]) is
structural.  Renders the search string, strips a leading slash (an empty
search string raises IndexError at the subscript), parses it back as
ElementTree does (slash-separated steps with Clark-notation brace groups
consumed atomically, see splitSlash), and searches; a hit returns the
found node untouched, a miss recreates the last segment under the
recursively located parent (the root when no segments remain). -/
def find_element_rev : List PyStr → Elem → Option PyStr → Except PyError (Elem × List Nat)
  | [], _, _ => .error .indexError
  | this_element :: initRev, tree, element_value =>
    match make_searchable ((this_element :: initRev).reverse) with
    | .error e => .error e
    | .ok rendered =>
      match joinSep '/' rendered with
      | [] => .error .indexError
      | c0 :: restTerm =>
        match parseToks (splitSlash false (if c0 == '/' then restTerm else c0 :: restTerm)) with
        | .error e => .error e
        | .ok toks =>
          match findPath toks tree.children with
          | some addr => .ok (tree, addr)
          | none =>
            if initRev.length > 0 then
              match find_element_rev initRev tree none with
              | .error e => .error e
              | .ok (t', pa) => add_elementAt this_element t' pa element_value
            else add_elementAt this_element tree [] element_value

/-- find_element on a path in root-to-leaf order. -/
def find_element (element : List PyStr) (tree : Elem) (element_value : Option PyStr) :
    Except PyError (Elem × List Nat) :=
  find_element_rev element.reverse tree element_value

/-- The tag of the per-row root, ET.Element(add_namespaces('mods:mods')). -/
def rootTag : PyStr := braceL :: modsURI ++ braceR :: "mods".data

/-- The fresh per-row tree: the bare root element. -/
def root0 : Elem := .mk rootTag [] none .nil

/-- The root tag really is what add_namespaces yields on 'mods:mods'. -/
theorem rootTag_spec : add_namespaces "mods:mods".data = .ok rootTag := rfl

/-- One entry of data_mapping: a parsed path or a literal placeholder. -/
inductive ColumnMap where
  | path (segs : List PyStr)
  | placeholder (s : PyStr)
deriving DecidableEq

/-- The per-header-field body of load_column_defs (src/tsv2mods.py lines
69-81): a field starting with a slash is split on slashes, empty parts
dropped, and appended as a path only when at least one part remains (a
field with no parts is silently skipped); any other field is appended as a
placeholder entry. -/
def headerField (data : PyStr) : List ColumnMap :=
  if data.length > 0 && data.head? == some '/' then
    let path_arr := (splitCh '/' data).filter (fun p => p.length > 0)
    if path_arr.length > 0 then [.path path_arr] else []
  else [.placeholder ("placeholder: ".data ++ data)]

/-- The loop of load_column_defs over the remaining header fields. -/
def loadFields : List PyStr → List ColumnMap
  | [] => []
  | f :: rest => headerField f ++ loadFields rest

/-- load_column_defs (src/tsv2mods.py lines 58-81): split the header line on
tabs, drop the filename column, and process every remaining field. -/
def load_column_defs (line : PyStr) : List ColumnMap :=
  loadFields ((splitCh (Char.ofNat 9) line).drop 1)

/-- The per-column body of process_data (src/tsv2mods.py lines 102-111):
strip double quotes from the field; when the mapping entry is a path and
the stripped field is non-empty or empty tags are included, run
find_element with the stripped field as value; otherwise leave the tree
alone. -/
def processColumn (include_empty_tags : Bool) (working_map : ColumnMap) (field : PyStr)
    (tree : Elem) : Except PyError Elem :=
  let column := stripEnds (fun c => c == quoteCh) field
  match working_map with
  | .placeholder _ => .ok tree
  | .path segs =>
    if column.length > 0 || include_empty_tags then
      match find_element segs tree (some column) with
      | .error e => .error e
      | .ok (t', _) => .ok t'
    else .ok tree

/-! ### Helper lemmas about the string primitives -/

theorem splitCh_sepfree (sep : Char) (s : PyStr) (h : s.any (fun c => c == sep) = false) :
    splitCh sep s = [s] := by
  induction s with
  | nil => rfl
  | cons c cs ih =>
    simp only [List.any_cons, Bool.or_eq_false_iff] at h
    simp [splitCh, h.1, ih h.2]

theorem splitCh_ne_nil (sep : Char) (s : PyStr) : splitCh sep s ≠ [] := by
  induction s with
  | nil => simp [splitCh]
  | cons c cs ih =>
    simp only [splitCh]
    by_cases h : (c == sep) = true
    · simp [h]
    · simp only [Bool.not_eq_true] at h
      simp only [h]
      cases hs : splitCh sep cs with
      | nil => exact absurd hs ih
      | cons t ts => simp

theorem splitCh_append_sep (sep : Char) (a b : PyStr)
    (h : a.any (fun c => c == sep) = false) :
    splitCh sep (a ++ sep :: b) = a :: splitCh sep b := by
  induction a with
  | nil => simp [splitCh]
  | cons c cs ih =>
    simp only [List.any_cons, Bool.or_eq_false_iff] at h
    have := ih h.2
    simp [List.cons_append, splitCh, h.1, this]

theorem splitCh_join (sep : Char) (s : PyStr) : joinSep sep (splitCh sep s) = s := by
  induction s with
  | nil => rfl
  | cons c cs ih =>
    simp only [splitCh]
    by_cases h : (c == sep) = true
    · have hc : c = sep := by simpa using h
      simp only [h, if_true]
      cases hs : splitCh sep cs with
      | nil => exact absurd hs (splitCh_ne_nil sep cs)
      | cons t ts =>
        rw [hs] at ih
        simp only [joinSep, List.nil_append]
        rw [ih, hc]
    · simp only [Bool.not_eq_true] at h
      simp only [h, Bool.false_eq_true, if_false]
      cases hs : splitCh sep cs with
      | nil => exact absurd hs (splitCh_ne_nil sep cs)
      | cons t ts =>
        rw [hs] at ih
        cases ts with
        | nil => simp only [joinSep] at ih ⊢; rw [ih]
        | cons u us =>
          simp only [joinSep] at ih ⊢
          rw [List.cons_append, ih]

/-- p occurs contiguously inside s. -/
def MidOf (p s : PyStr) : Prop := ∃ pre post, s = pre ++ p ++ post

theorem midOf_trans {p q s : PyStr} (h1 : MidOf p q) (h2 : MidOf q s) : MidOf p s := by
  obtain ⟨a, b, hab⟩ := h1
  obtain ⟨c, d, hcd⟩ := h2
  exact ⟨c ++ a, b ++ d, by simp [hcd, hab]⟩

theorem leadMatch_append (pat a b : PyStr) (h : leadMatch pat a = true) :
    leadMatch pat (a ++ b) = true := by
  induction pat generalizing a with
  | nil => rfl
  | cons p ps ih =>
    cases a with
    | nil => exact absurd h (by simp [leadMatch])
    | cons c cs =>
      simp only [leadMatch, Bool.and_eq_true] at h
      have h2 := ih cs h.2
      simp only [List.cons_append, leadMatch, h.1, Bool.true_and]
      simpa using h2

theorem hasSub_append_left (pat a b : PyStr) (h : hasSub pat a = true) :
    hasSub pat (a ++ b) = true := by
  induction a with
  | nil =>
    cases pat with
    | nil => cases b <;> simp [hasSub, leadMatch]
    | cons p ps => simp [hasSub, leadMatch] at h
  | cons c cs ih =>
    simp only [hasSub, Bool.or_eq_true] at h
    rcases h with h | h
    · have := leadMatch_append pat (c :: cs) b h
      simp only [List.cons_append] at this
      simp [hasSub, this]
    · have := ih h
      simp [hasSub, this]

theorem hasSub_append_right (pat a b : PyStr) (h : hasSub pat b = true) :
    hasSub pat (a ++ b) = true := by
  induction a with
  | nil => simpa using h
  | cons c cs ih => simp [hasSub, ih]

theorem hasSub_false_of_mid {pat p s : PyStr} (hm : MidOf p s) (h : hasSub pat s = false) :
    hasSub pat p = false := by
  obtain ⟨pre, post, rfl⟩ := hm
  by_contra hc
  simp only [Bool.not_eq_false] at hc
  have : hasSub pat (pre ++ p ++ post) = true := by
    have h1 := hasSub_append_left pat p post hc
    have h2 := hasSub_append_right pat pre (p ++ post) h1
    simpa using h2
  rw [this] at h
  cases h

theorem midOf_joinSep (sep : Char) (p : PyStr) (l : List PyStr) (h : p ∈ l) :
    MidOf p (joinSep sep l) := by
  induction l with
  | nil => cases h
  | cons x xs ih =>
    rcases List.mem_cons.mp h with rfl | hmem
    · cases xs with
      | nil => exact ⟨[], [], by simp [joinSep]⟩
      | cons y ys => exact ⟨[], sep :: joinSep sep (y :: ys), by simp [joinSep]⟩
    · cases xs with
      | nil => cases hmem
      | cons y ys =>
        obtain ⟨a, b, hab⟩ := ih hmem
        exact ⟨x ++ sep :: a, b, by simp [joinSep, hab]⟩

theorem midOf_splitCh (sep : Char) (p s : PyStr) (h : p ∈ splitCh sep s) : MidOf p s := by
  have := midOf_joinSep sep p (splitCh sep s) h
  rwa [splitCh_join] at this

theorem midOf_dropWhile (q : Char → Bool) (s : PyStr) : MidOf (s.dropWhile q) s :=
  ⟨s.takeWhile q, [], by simp⟩

theorem midOf_stripEnds (q : Char → Bool) (s : PyStr) : MidOf (stripEnds q s) s := by
  unfold stripEnds
  apply midOf_trans (p := ((s.dropWhile q).reverse.dropWhile q).reverse)
    (q := s.dropWhile q) _ (midOf_dropWhile q s)
  obtain ⟨a, b, hab⟩ := midOf_dropWhile q (s.dropWhile q).reverse
  refine ⟨b.reverse, a.reverse, ?_⟩
  have := congrArg List.reverse hab
  simpa using this

/-! ### Per-claim results -/

/-- C3. The claim states that a path whose final segment carries forced
literal text and no attribute predicate (such as b with suffix
greater-than Hello) yields a leaf whose text is the literal regardless of
the row value.  The code disagrees: without an attribute whose value is
the %value% placeholder, add_element never consults the split-off literal,
and the element text is the trimmed row value.  This theorem evaluates the
embedded code at the failing input: segment "b>Hello" with row value
"World" gives text "World", not "Hello", both at the element-construction
level and through a whole find_element materialization of /a/b>Hello. -/
theorem C3_forced_literal_dropped :
    buildElement "b>Hello".data (some "World".data)
        = .ok (.mk "b".data [] (some "World".data) .nil)
      ∧ find_element ["a".data, "b>Hello".data] root0 (some "World".data)
        = .ok (.mk rootTag [] none
            (.cons (.mk "a".data [] none
              (.cons (.mk "b".data [] (some "World".data) .nil) .nil)) .nil), [0, 0])
      ∧ some "World".data ≠ some "Hello".data := by
  refine ⟨rfl, rfl, ?_⟩
  simp

/-- C5 (confirmed).  A row field that strips (Python str.strip with the
double-quote character, as process_data does) to the empty string, with
empty-tag inclusion disabled, is skipped entirely: the per-column step of
process_data returns the tree unchanged, so no leaf and no ancestors are
created and existing nodes are untouched. -/
theorem C5_empty_skip (segs : List PyStr) (field : PyStr) (tree : Elem)
    (h : stripEnds (fun c => c == quoteCh) field = []) :
    processColumn false (.path segs) field tree = .ok tree := by
  unfold processColumn
  simp [h]

/-- Witness for C5 at the field consisting of two double quotes. -/
theorem C5_witness :
    processColumn false (.path ["a".data, "b".data]) [quoteCh, quoteCh] root0 = .ok root0 :=
  C5_empty_skip ["a".data, "b".data] [quoteCh, quoteCh] root0 (by decide)

/-- The quote-stripping applied to attribute values in add_element. -/
def stripQuotes (s : PyStr) : PyStr := stripEnds (fun c => c == quoteCh || c == aposCh) s

/-- Python str.strip of spaces, applied to row values in add_element. -/
def stripSpaces (s : PyStr) : PyStr := stripEnds (fun c => c == ' ') s

/-- Symbolic evaluation of buildElement on a segment of the shape
name, commercial-at, key, equals, value, with no greater-than suffix:
the attribute receives the row value when the value contains %value%,
else the literal, and the element text is the normalised row value in the
literal case and nothing in the placeholder case. -/
theorem buildElement_attr (n k val0 : PyStr) (v : Option PyStr)
    (hn_at : n.any (fun c => c == '@') = false)
    (hn_gt : n.any (fun c => c == '>') = false)
    (hn_col : n.any (fun c => c == ':') = false)
    (hk_gt : k.any (fun c => c == '>') = false)
    (hk_at : k.any (fun c => c == '@') = false)
    (hk_eq : k.any (fun c => c == '=') = false)
    (hk_col : k.any (fun c => c == ':') = false)
    (hv_gt : val0.any (fun c => c == '>') = false)
    (hv_at : val0.any (fun c => c == '@') = false)
    (hv_eq : val0.any (fun c => c == '=') = false) :
    buildElement (n ++ ('@' :: (k ++ ('=' :: val0)))) v =
      (if hasSub "%value%".data (stripQuotes val0) = true then
        Except.ok (.mk n [(k, normVal v)] none .nil)
      else Except.ok (.mk n [(k, some (stripQuotes val0))] (normVal v) .nil)) := by
  have hgt : ((n ++ ('@' :: (k ++ ('=' :: val0)))).any (fun c => c == '>')) = false := by
    simp [List.any_append, hn_gt, hk_gt, hv_gt]
  have hat : ((n ++ ('@' :: (k ++ ('=' :: val0)))).any (fun c => c == '@')) = true := by
    simp [List.any_append]
  have hsplit1 : splitCh '@' (n ++ ('@' :: (k ++ ('=' :: val0)))) = [n, k ++ '=' :: val0] := by
    rw [splitCh_append_sep _ _ _ hn_at, splitCh_sepfree]
    simp [List.any_append, hk_at, hv_at]
  have hsplit2 : splitCh '=' (k ++ '=' :: val0) = [k, val0] := by
    rw [splitCh_append_sep _ _ _ hk_eq, splitCh_sepfree _ _ hv_eq]
  have hns_k : add_namespaces k = .ok k := by unfold add_namespaces; simp [hk_col]
  have hns_n : add_namespaces n = .ok n := by unfold add_namespaces; simp [hn_col]
  unfold buildElement addElementCore
  rw [hgt]
  simp only [Bool.false_eq_true, if_false]
  rw [hat]
  simp only [if_true, hsplit1, hsplit2, hns_k, hns_n]
  by_cases hvv : hasSub "%value%".data (stripQuotes val0) = true
  · simp only [stripQuotes] at hvv
    simp [hvv, stripQuotes]
  · simp only [stripQuotes, Bool.not_eq_true] at hvv
    simp [hvv, stripQuotes]

/-- Symbolic evaluation of buildElement on a segment of the attribute shape
followed by a greater-than literal suffix: the literal lands in the text
only in the %value% case; in the literal-attribute case the text is still
the normalised row value and the greater-than literal is dropped. -/
theorem buildElement_attr_gt (n k val0 lit : PyStr) (v : Option PyStr)
    (hn_at : n.any (fun c => c == '@') = false)
    (hn_gt : n.any (fun c => c == '>') = false)
    (hn_col : n.any (fun c => c == ':') = false)
    (hk_gt : k.any (fun c => c == '>') = false)
    (hk_at : k.any (fun c => c == '@') = false)
    (hk_eq : k.any (fun c => c == '=') = false)
    (hk_col : k.any (fun c => c == ':') = false)
    (hv_gt : val0.any (fun c => c == '>') = false)
    (hv_at : val0.any (fun c => c == '@') = false)
    (hv_eq : val0.any (fun c => c == '=') = false)
    (hlit_gt : lit.any (fun c => c == '>') = false) :
    buildElement ((n ++ ('@' :: (k ++ ('=' :: val0)))) ++ ('>' :: lit)) v =
      (if hasSub "%value%".data (stripQuotes val0) = true then
        Except.ok (.mk n [(k, normVal v)] (some lit) .nil)
      else Except.ok (.mk n [(k, some (stripQuotes val0))] (normVal v) .nil)) := by
  have hA_gt : ((n ++ ('@' :: (k ++ ('=' :: val0)))).any (fun c => c == '>')) = false := by
    simp [List.any_append, hn_gt, hk_gt, hv_gt]
  have hgt : (((n ++ ('@' :: (k ++ ('=' :: val0)))) ++ ('>' :: lit)).any (fun c => c == '>')) = true := by
    simp [List.any_append]
  have hsgt : splitCh '>' ((n ++ ('@' :: (k ++ ('=' :: val0)))) ++ ('>' :: lit))
      = [n ++ ('@' :: (k ++ ('=' :: val0))), lit] := by
    rw [splitCh_append_sep _ _ _ hA_gt, splitCh_sepfree _ _ hlit_gt]
  have hat : ((n ++ ('@' :: (k ++ ('=' :: val0)))).any (fun c => c == '@')) = true := by
    simp [List.any_append]
  have hsplit1 : splitCh '@' (n ++ ('@' :: (k ++ ('=' :: val0)))) = [n, k ++ '=' :: val0] := by
    rw [splitCh_append_sep _ _ _ hn_at, splitCh_sepfree]
    simp [List.any_append, hk_at, hv_at]
  have hsplit2 : splitCh '=' (k ++ '=' :: val0) = [k, val0] := by
    rw [splitCh_append_sep _ _ _ hk_eq, splitCh_sepfree _ _ hv_eq]
  have hns_k : add_namespaces k = .ok k := by unfold add_namespaces; simp [hk_col]
  have hns_n : add_namespaces n = .ok n := by unfold add_namespaces; simp [hn_col]
  unfold buildElement addElementCore
  rw [hgt]
  simp only [if_true, hsgt, hat, hsplit1, hsplit2, hns_k, hns_n]
  by_cases hvv : hasSub "%value%".data (stripQuotes val0) = true
  · simp only [stripQuotes] at hvv
    simp [hvv, stripQuotes]
  · simp only [stripQuotes, Bool.not_eq_true] at hvv
    simp [hvv, stripQuotes]

/-- normVal on a value that is not the blank sentinel after space-stripping. -/
theorem normVal_some (v : PyStr) (hv : stripSpaces v ≠ "%blank%".data) :
    normVal (some v) = some (stripSpaces v) := by
  unfold normVal stripSpaces at *
  simp [hv]

/-- C4 counterexample.  The claim quantifies over every row value X, but at
the row value %blank% the code first turns the value into Python None and
then stores None under the attribute key (no string is written), so the
attribute is not key equals the trimmed row value. -/
theorem C4_counterexample :
    buildElement "foo@key=%value%".data (some "%blank%".data)
        = .ok (.mk "foo".data [("key".data, none)] none .nil)
      ∧ (none : Option PyStr) ≠ some "%blank%".data := by
  exact ⟨rfl, by simp⟩

/-- C4 as amended: for every row value OTHER than the %blank% sentinel
(after trimming), a final segment name-at-key-equals-%value% puts the
trimmed row value under the attribute and leaves the text empty, and with
an additional greater-than literal the text becomes that literal. -/
theorem C4_amended_placeholder_attr (n k lit v : PyStr)
    (hn_at : n.any (fun c => c == '@') = false)
    (hn_gt : n.any (fun c => c == '>') = false)
    (hn_col : n.any (fun c => c == ':') = false)
    (hk_gt : k.any (fun c => c == '>') = false)
    (hk_at : k.any (fun c => c == '@') = false)
    (hk_eq : k.any (fun c => c == '=') = false)
    (hk_col : k.any (fun c => c == ':') = false)
    (hlit_gt : lit.any (fun c => c == '>') = false)
    (hv : stripSpaces v ≠ "%blank%".data) :
    buildElement (n ++ ('@' :: (k ++ ('=' :: "%value%".data)))) (some v)
        = .ok (.mk n [(k, some (stripSpaces v))] none .nil)
      ∧ buildElement ((n ++ ('@' :: (k ++ ('=' :: "%value%".data)))) ++ ('>' :: lit)) (some v)
        = .ok (.mk n [(k, some (stripSpaces v))] (some lit) .nil) := by
  have hq : hasSub "%value%".data (stripQuotes "%value%".data) = true := by decide
  constructor
  · rw [buildElement_attr n k "%value%".data (some v) hn_at hn_gt hn_col hk_gt hk_at hk_eq
      hk_col (by decide) (by decide) (by decide)]
    rw [if_pos hq, normVal_some v hv]
  · rw [buildElement_attr_gt n k "%value%".data lit (some v) hn_at hn_gt hn_col hk_gt hk_at
      hk_eq hk_col (by decide) (by decide) (by decide) hlit_gt]
    rw [if_pos hq, normVal_some v hv]

/-- Witness for the amended C4 at foo-at-key-equals-%value%, literal L,
row value X. -/
theorem C4_amended_witness :
    buildElement ("foo".data ++ ('@' :: ("key".data ++ ('=' :: "%value%".data))))
        (some "X".data)
        = .ok (.mk "foo".data [("key".data, some (stripSpaces "X".data))] none .nil)
      ∧ buildElement (("foo".data ++ ('@' :: ("key".data ++ ('=' :: "%value%".data))))
          ++ ('>' :: "L".data)) (some "X".data)
        = .ok (.mk "foo".data [("key".data, some (stripSpaces "X".data))] (some "L".data) .nil) :=
  C4_amended_placeholder_attr "foo".data "key".data "L".data "X".data (by decide) (by decide)
    (by decide) (by decide) (by decide) (by decide) (by decide) (by decide) (by decide)

/-- C7 counterexample.  The claim says the row value is silently discarded
when the attribute value is a literal; in fact add_element leaves the row
value in element_value in the literal branch and then writes it to the
element text: materializing b-at-k-equals-v with row value X yields text
X, not an empty text. -/
theorem C7_counterexample :
    find_element ["b@k=v".data] root0 (some "X".data)
        = .ok (.mk rootTag [] none
            (.cons (.mk "b".data [("k".data, some "v".data)] (some "X".data) .nil) .nil), [0])
      ∧ some "X".data ≠ (none : Option PyStr) := by
  exact ⟨rfl, by simp⟩

/-- C7 as amended: with a literal-valued attribute predicate the attribute is
set to the quote-stripped literal, and the row value is NOT discarded: the
element text receives the normalised row value (trimmed; the %blank%
sentinel or a missing value gives no text). -/
theorem C7_amended_literal_attr (n k val0 : PyStr) (v : Option PyStr)
    (hn_at : n.any (fun c => c == '@') = false)
    (hn_gt : n.any (fun c => c == '>') = false)
    (hn_col : n.any (fun c => c == ':') = false)
    (hk_gt : k.any (fun c => c == '>') = false)
    (hk_at : k.any (fun c => c == '@') = false)
    (hk_eq : k.any (fun c => c == '=') = false)
    (hk_col : k.any (fun c => c == ':') = false)
    (hv_gt : val0.any (fun c => c == '>') = false)
    (hv_at : val0.any (fun c => c == '@') = false)
    (hv_eq : val0.any (fun c => c == '=') = false)
    (hnov : hasSub "%value%".data (stripQuotes val0) = false) :
    buildElement (n ++ ('@' :: (k ++ ('=' :: val0)))) v
      = .ok (.mk n [(k, some (stripQuotes val0))] (normVal v) .nil) := by
  rw [buildElement_attr n k val0 v hn_at hn_gt hn_col hk_gt hk_at hk_eq hk_col hv_gt hv_at
    hv_eq]
  rw [if_neg (by simp [hnov])]

/-- Witness for the amended C7 at b-at-k-equals-v with row value X. -/
theorem C7_amended_witness :
    buildElement ("b".data ++ ('@' :: ("k".data ++ ('=' :: "v".data)))) (some "X".data)
      = .ok (.mk "b".data [("k".data, some (stripQuotes "v".data))]
          (normVal (some "X".data)) .nil) :=
  C7_amended_literal_attr "b".data "k".data "v".data (some "X".data) (by decide) (by decide)
    (by decide) (by decide) (by decide) (by decide) (by decide) (by decide) (by decide)
    (by decide) (by decide)

/-- Concatenation law for the load_column_defs loop. -/
theorem loadFields_append (a b : List PyStr) :
    loadFields (a ++ b) = loadFields a ++ loadFields b := by
  induction a with
  | nil => rfl
  | cons f rest ih => simp [loadFields, ih]

/-- C8 counterexample.  The claim says a slash-prefixed header field with
zero segments makes the loader fail with MalformedPathError; the code has
no such error: load_column_defs is total, produces no mapping entry for
the field, and silently continues with the remaining fields (which
therefore shift one mapping position left). -/
theorem C8_counterexample :
    load_column_defs ("x".data ++ Char.ofNat 9 :: "/".data) = []
      ∧ load_column_defs ("x".data ++ Char.ofNat 9 :: ('/' :: Char.ofNat 9 :: "/a/b".data))
        = [.path ["a".data, "b".data]] := by
  exact ⟨rfl, rfl⟩

/-- C8 as amended: a slash-prefixed header field whose slash-split yields no
non-empty segment produces NO mapping entry (neither a path nor a
placeholder) and the loader continues unchanged over the other fields. -/
theorem C8_amended_silent_skip (f : PyStr) (fields : List PyStr)
    (h1 : f.head? = some '/')
    (h2 : (splitCh '/' f).filter (fun p => p.length > 0) = []) :
    headerField f = [] ∧ loadFields (fields ++ [f]) = loadFields fields := by
  have hne : f ≠ [] := by
    intro h
    rw [h] at h1
    cases h1
  have hcond : (f.length > 0 && f.head? == some '/') = true := by
    cases f with
    | nil => exact absurd rfl hne
    | cons c cs =>
      cases h1
      simp
  have hhf : headerField f = [] := by
    unfold headerField
    rw [if_pos hcond, h2]
    simp
  exact ⟨hhf, by simp [loadFields_append, loadFields, hhf]⟩

/-- Witness for the amended C8 at the field consisting of one slash. -/
theorem C8_amended_witness :
    headerField "/".data = []
      ∧ loadFields (["/a".data] ++ ["/".data]) = loadFields ["/a".data] :=
  C8_amended_silent_skip "/".data ["/a".data] (by decide) (by decide)

/-- C10 (confirmed).  For a name token of the form colon-joined pair whose
first part is absent from the static table, add_namespaces fails with the
KeyError of the dictionary lookup (the modelled UnknownNamespaceError);
a token without a colon is returned unchanged, in particular it is not
given the mods namespace. -/
theorem C10_resolver (tok p l : PyStr)
    (hsplit : splitCh ':' tok = [p, l]) (hmiss : nsLookup p = none) :
    add_namespaces tok = .error (.keyError p)
      ∧ ∀ t : PyStr, t.any (fun c => c == ':') = false → add_namespaces t = .ok t := by
  constructor
  · have hc : tok.any (fun c => c == ':') = true := by
      cases h : tok.any (fun c => c == ':') with
      | true => rfl
      | false =>
        rw [splitCh_sepfree ':' tok h] at hsplit
        cases hsplit
    unfold add_namespaces
    rw [if_pos hc, hsplit]
    simp [hmiss]
  · intro t ht
    unfold add_namespaces
    rw [if_neg (by simp [ht])]

/-- Witness for C10 at foo:bar (unknown key foo) and the plain token plain. -/
theorem C10_witness :
    add_namespaces "foo:bar".data = .error (.keyError "foo".data)
      ∧ ∀ t : PyStr, t.any (fun c => c == ':') = false → add_namespaces t = .ok t :=
  C10_resolver "foo:bar".data "foo".data "bar".data (by decide) (by decide)

/-- The list of plain-tag search steps of a list of resolved tags. -/
def tagToks (l : List PyStr) : List ETok := l.map ETok.tagTok

/-- A single chain of elements carrying the given subtree at its bottom:
every chain node has the segment as tag, no attributes, no text, and one
child. -/
def chainElem : List PyStr → Elem → Elem
  | [], e => e
  | s :: rest, e => .mk s [] none (.cons (chainElem rest e) .nil)

theorem findPath_chain_walk (q : List PyStr) (toks : List ETok) (X : Elem)
    (hne : toks ≠ []) :
    findPath (tagToks q ++ toks) (.cons (chainElem q X) .nil)
      = (findPath toks (.cons X .nil)).map (fun a => List.replicate q.length 0 ++ a) := by
  induction q with
  | nil =>
    simp only [tagToks, List.map_nil, List.nil_append, List.length_nil, List.replicate,
      chainElem]
    cases findPath toks (.cons X .nil) <;> simp
  | cons s rest ih =>
    simp only [tagToks, List.map_cons, List.cons_append] at ih ⊢
    cases hts : rest.map ETok.tagTok ++ toks with
    | nil =>
      rcases List.append_eq_nil.mp hts with ⟨-, h2⟩
      exact absurd h2 hne
    | cons w ws =>
      have hstep : findPath (ETok.tagTok s :: w :: ws)
          (.cons (chainElem (s :: rest) X) .nil)
          = (match findPath (w :: ws) (.cons (chainElem rest X) .nil) with
            | some a => some (0 :: a)
            | none => none) := by
        rw [show chainElem (s :: rest) X
            = Elem.mk s [] none (.cons (chainElem rest X) .nil) from rfl]
        rw [findPath]
        simp only [matchTok, beq_self_eq_true, if_true]
        cases findPath (w :: ws) (.cons (chainElem rest X) .nil) <;> simp [findPath]
      rw [hstep, ← hts, ih]
      cases findPath toks (.cons X .nil) <;> simp [List.replicate]

theorem findPath_chain_found (q : List PyStr) (t : PyStr)
    (ar : List (PyStr × Option PyStr)) (tx : Option PyStr) (cc : ElemList) :
    findPath (tagToks (q ++ [t])) (.cons (chainElem q (.mk t ar tx cc)) .nil)
      = some (List.replicate (q.length + 1) 0) := by
  have h1 : tagToks (q ++ [t]) = tagToks q ++ [ETok.tagTok t] := by
    simp [tagToks]
  rw [h1, findPath_chain_walk q [ETok.tagTok t] (.mk t ar tx cc) (by simp)]
  have h2 : findPath [ETok.tagTok t] (.cons (.mk t ar tx cc) .nil) = some [0] := by
    simp [findPath, matchTok]
  rw [h2]
  simp [← List.replicate_succ']

/-- With an element value of none, the attribute tail never writes a text
unless the %value% placeholder branch fires; and that branch cannot fire
when the whole element definition contains no %value% occurrence. -/
theorem addElementCore_text_none (edef : PyStr) (common : Option PyStr) (e : Elem)
    (hnoval : hasSub "%value%".data edef = false)
    (hok : addElementCore edef common none = .ok e) : e.text = none := by
  unfold addElementCore at hok
  by_cases hat : (edef.any (fun c => c == '@')) = true
  · rw [if_pos hat] at hok
    cases hsp : splitCh '@' edef with
    | nil => rw [hsp] at hok; cases hok
    | cons a rest =>
      cases rest with
      | nil => rw [hsp] at hok; cases hok
      | cons b rest2 =>
        cases rest2 with
        | cons _ _ => rw [hsp] at hok; cases hok
        | nil =>
          rw [hsp] at hok
          simp only [] at hok
          cases hsp2 : splitCh '=' b with
          | nil => rw [hsp2] at hok; cases hok
          | cons k0 rest3 =>
            cases rest3 with
            | nil => rw [hsp2] at hok; cases hok
            | cons v0 rest4 =>
              cases rest4 with
              | cons _ _ => rw [hsp2] at hok; cases hok
              | nil =>
                rw [hsp2] at hok
                simp only [] at hok
                cases hns : add_namespaces k0 with
                | error e0 => rw [hns] at hok; cases hok
                | ok key =>
                  rw [hns] at hok
                  simp only [] at hok
                  have hvfalse : hasSub "%value%".data
                      (stripEnds (fun c => c == quoteCh || c == aposCh) v0) = false := by
                    have hm1 : MidOf v0 b := midOf_splitCh '=' v0 b (by rw [hsp2]; simp)
                    have hm2 : MidOf b edef := midOf_splitCh '@' b edef (by rw [hsp]; simp)
                    have hm3 : MidOf (stripEnds (fun c => c == quoteCh || c == aposCh) v0) v0 :=
                      midOf_stripEnds _ v0
                    exact hasSub_false_of_mid (midOf_trans hm3 (midOf_trans hm1 hm2)) hnoval
                  rw [hvfalse] at hok
                  simp only [Bool.false_eq_true, if_false] at hok
                  cases hns2 : add_namespaces a with
                  | error e0 => rw [hns2] at hok; cases hok
                  | ok tg =>
                    rw [hns2] at hok
                    cases hok
                    rfl
  · rw [if_neg hat] at hok
    cases hns : add_namespaces edef with
    | error e0 => rw [hns] at hok; cases hok
    | ok tg =>
      rw [hns] at hok
      cases hok
      rfl

/-- C6 (confirmed).  The per-column step never skips a row field equal to the
%blank% sentinel even with empty-tag inclusion disabled (the field is
non-empty, so find_element runs); and for any final segment without a
%value% attribute placeholder, the element add_element builds from the
%blank% sentinel has no text, whatever else the segment carries. -/
theorem C6_blank_sentinel (segs : List PyStr) (tree : Elem) (s : PyStr) (e : Elem) :
    processColumn false (.path segs) "%blank%".data tree
        = (find_element segs tree (some "%blank%".data)).map (fun r => r.1)
      ∧ (hasSub "%value%".data s = false → buildElement s (some "%blank%".data) = .ok e →
          e.text = none) := by
  constructor
  · unfold processColumn
    have hcol : stripEnds (fun c => c == quoteCh) "%blank%".data = "%blank%".data := by
      decide
    rw [hcol]
    simp only []
    rw [if_pos (by decide)]
    cases h : find_element segs tree (some "%blank%".data) with
    | error e0 => simp [Except.map]
    | ok pr => simp [Except.map]
  · intro hnov hok
    unfold buildElement at hok
    have hb : normVal (some "%blank%".data) = none := by decide
    rw [hb] at hok
    by_cases hgt : (s.any (fun c => c == '>')) = true
    · rw [if_pos hgt] at hok
      cases hsp : splitCh '>' s with
      | nil => rw [hsp] at hok; cases hok
      | cons a rest =>
        cases rest with
        | nil => rw [hsp] at hok; cases hok
        | cons b rest2 =>
          cases rest2 with
          | cons _ _ => rw [hsp] at hok; cases hok
          | nil =>
            rw [hsp] at hok
            simp only [] at hok
            have hnova : hasSub "%value%".data a = false := by
              have hm : MidOf a s := midOf_splitCh '>' a s (by rw [hsp]; simp)
              exact hasSub_false_of_mid hm hnov
            exact addElementCore_text_none a (some b) e hnova hok
    · rw [if_neg hgt] at hok
      simp only [] at hok
      exact addElementCore_text_none s none e hnov hok

/-- Witness for C6 at the path /a/b with segment b; the third conjunct
spells the resulting tree out: the empty b element is really created even
though empty-tag inclusion is disabled. -/
theorem C6_witness :
    processColumn false (.path ["a".data, "b".data]) "%blank%".data root0
        = (find_element ["a".data, "b".data] root0 (some "%blank%".data)).map (fun r => r.1)
      ∧ (Elem.mk "b".data [] none .nil).text = none
      ∧ processColumn false (.path ["a".data, "b".data]) "%blank%".data root0
        = .ok (.mk rootTag [] none
            (.cons (.mk "a".data [] none
              (.cons (.mk "b".data [] none .nil) .nil)) .nil)) :=
  ⟨(C6_blank_sentinel ["a".data, "b".data] root0 "b".data
      (.mk "b".data [] none .nil)).1,
    (C6_blank_sentinel ["a".data, "b".data] root0 "b".data
      (.mk "b".data [] none .nil)).2 (by decide) (by rfl), rfl⟩

/-! ### C9: find_element never deletes or mutates existing nodes -/

theorem ElemList.get?_push : (l : ElemList) → (c x : Elem) → (i : Nat) →
    l.get? i = some x → (l.push c).get? i = some x
  | .nil, _, _, i, h => by cases i <;> cases h
  | .cons _ _, _, _, 0, h => h
  | .cons _ es, c, x, n + 1, h => ElemList.get?_push es c x n h

theorem ElemList.length_push : (l : ElemList) → (c : Elem) →
    (l.push c).length = l.length + 1
  | .nil, _ => rfl
  | .cons _ es, c => by
    simp only [ElemList.push, ElemList.length]
    rw [ElemList.length_push es c]

theorem ElemList.length_set : (l : ElemList) → (i : Nat) → (e : Elem) →
    (l.set i e).length = l.length
  | .nil, _, _ => rfl
  | .cons _ _, 0, _ => rfl
  | .cons _ es, n + 1, e => by
    simp only [ElemList.set, ElemList.length]
    rw [ElemList.length_set es n e]

theorem ElemList.get?_set_other : (l : ElemList) → (i j : Nat) → (e : Elem) → j ≠ i →
    (l.set i e).get? j = l.get? j
  | .nil, _, _, _, _ => rfl
  | .cons _ _, 0, 0, _, hne => absurd rfl hne
  | .cons _ _, 0, _ + 1, _, _ => rfl
  | .cons _ _, _ + 1, 0, _, _ => rfl
  | .cons _ es, n + 1, m + 1, e, hne =>
    ElemList.get?_set_other es n m e (fun h => hne (by rw [h]))

theorem ElemList.get?_set_self : (l : ElemList) → (i : Nat) → (e x : Elem) →
    l.get? i = some x → (l.set i e).get? i = some e
  | .nil, i, _, _, h => by cases i <;> cases h
  | .cons _ _, 0, _, _, _ => rfl
  | .cons _ es, n + 1, e, x, h => ElemList.get?_set_self es n e x h

theorem ElemList.get?_length_none : (l : ElemList) → l.get? l.length = none
  | .nil => rfl
  | .cons _ es => ElemList.get?_length_none es

/-- Address composition for nodeAt. -/
theorem nodeAt_append (t : Elem) (x y : List Nat) :
    nodeAt t (x ++ y) = (nodeAt t x).bind (fun n => nodeAt n y) := by
  induction x generalizing t with
  | nil => rfl
  | cons i rest ih =>
    simp only [List.cons_append, nodeAt]
    cases t.children.get? i with
    | none => rfl
    | some c => exact ih c

/-- The tree on the right extends the one on the left: every node of the old
tree is still present at its old address with the same tag, attributes and
text, and its child list has only grown (new children can only sit at
fresh trailing indices). -/
def Extends (t t' : Elem) : Prop :=
  ∀ a n, nodeAt t a = some n → ∃ n', nodeAt t' a = some n'
    ∧ n'.tag = n.tag ∧ n'.attrs = n.attrs ∧ n'.text = n.text
    ∧ n.children.length ≤ n'.children.length

theorem extends_self (t : Elem) : Extends t t :=
  fun _ n h => ⟨n, h, rfl, rfl, rfl, Nat.le_refl _⟩

theorem extends_trans {t1 t2 t3 : Elem} (h1 : Extends t1 t2) (h2 : Extends t2 t3) :
    Extends t1 t3 := by
  intro a n h
  obtain ⟨m, hm, htag, hattr, htext, hlen⟩ := h1 a n h
  obtain ⟨m', hm', htag', hattr', htext', hlen'⟩ := h2 a m hm
  exact ⟨m', hm', by rw [htag', htag], by rw [hattr', hattr], by rw [htext', htext],
    hlen.trans hlen'⟩

theorem appendAt_top (c : Elem) (q : List Nat) (t : Elem) :
    (appendAt c q t).tag = t.tag ∧ (appendAt c q t).attrs = t.attrs
      ∧ (appendAt c q t).text = t.text
      ∧ t.children.length ≤ (appendAt c q t).children.length := by
  cases q with
  | nil =>
    cases t with
    | mk tg ar tx cs =>
      refine ⟨rfl, rfl, rfl, ?_⟩
      simp [appendAt, Elem.children, ElemList.length_push]
  | cons i rest =>
    cases t with
    | mk tg ar tx cs =>
      cases hg : cs.get? i with
      | none => simp [appendAt, hg]
      | some e =>
        refine ⟨by simp [appendAt, hg, Elem.tag], by simp [appendAt, hg, Elem.attrs],
          by simp [appendAt, hg, Elem.text], ?_⟩
        simp [appendAt, hg, Elem.children, ElemList.length_set]

/-- Appending a child anywhere preserves every existing node. -/
theorem extends_appendAt (c : Elem) (q : List Nat) (t : Elem) :
    Extends t (appendAt c q t) := by
  intro a
  induction a generalizing q t with
  | nil =>
    intro n h
    rw [show nodeAt t [] = some t from rfl] at h
    cases h
    obtain ⟨h1, h2, h3, h4⟩ := appendAt_top c q t
    exact ⟨appendAt c q t, rfl, h1, h2, h3, h4⟩
  | cons j a' ih =>
    intro n h
    simp only [nodeAt] at h
    cases hc : t.children.get? j with
    | none => rw [hc] at h; cases h
    | some ch =>
      rw [hc] at h
      cases q with
      | nil =>
        cases t with
        | mk tg ar tx cs =>
          refine ⟨n, ?_, rfl, rfl, rfl, Nat.le_refl _⟩
          simp only [nodeAt, appendAt, Elem.children]
          simp only [Elem.children] at hc
          rw [ElemList.get?_push cs c ch j hc]
          exact h
      | cons i rest =>
        cases t with
        | mk tg ar tx cs =>
          simp only [Elem.children] at hc
          cases hg : cs.get? i with
          | none =>
            refine ⟨n, ?_, rfl, rfl, rfl, Nat.le_refl _⟩
            simp only [appendAt, hg, nodeAt, Elem.children]
            rw [hc]
            exact h
          | some e =>
            by_cases hij : j = i
            · subst hij
              rw [hc] at hg
              cases hg
              obtain ⟨n', hn', props⟩ := ih rest ch n h
              refine ⟨n', ?_, props.1, props.2.1, props.2.2.1, props.2.2.2⟩
              simp only [appendAt, nodeAt, Elem.children]
              rw [show cs.get? j = some ch from hc]
              rw [ElemList.get?_set_self cs j (appendAt c rest ch) ch hc]
              exact hn'
            · refine ⟨n, ?_, rfl, rfl, rfl, Nat.le_refl _⟩
              simp only [appendAt, nodeAt, Elem.children]
              rw [show cs.get? i = some e from hg]
              rw [ElemList.get?_set_other cs i j (appendAt c rest e) hij, hc]
              exact h

/-- The invariant for find_element_rev: a successful call only extends the
tree, and either it found (tree unchanged) or the returned address is
fresh (it did not resolve in the old tree). -/
theorem find_element_rev_extends (rl : List PyStr) :
    ∀ (tree : Elem) (v : Option PyStr) (t' : Elem) (a : List Nat),
      find_element_rev rl tree v = .ok (t', a) →
      Extends tree t' ∧ (t' = tree ∨ nodeAt tree a = none) := by
  induction rl with
  | nil =>
    intro tree v t' a h
    cases h
  | cons t ir ih =>
    intro tree v t' a h
    rw [find_element_rev] at h
    cases hms : make_searchable ((t :: ir).reverse) with
    | error e => rw [hms] at h; cases h
    | ok rendered =>
      rw [hms] at h
      simp only [] at h
      cases hjn : joinSep '/' rendered with
      | nil => rw [hjn] at h; cases h
      | cons c0 restT =>
        rw [hjn] at h
        simp only [] at h
        cases hpt : parseToks (splitSlash false (if c0 == '/' then restT else c0 :: restT)) with
        | error e => rw [hpt] at h; cases h
        | ok toks =>
          rw [hpt] at h
          simp only [] at h
          cases hfp : findPath toks tree.children with
          | some addr =>
            rw [hfp] at h
            cases h
            exact ⟨extends_self tree, Or.inl rfl⟩
          | none =>
            rw [hfp] at h
            simp only [] at h
            cases ir with
            | nil =>
              simp only [List.length_nil, gt_iff_lt, Nat.lt_irrefl, if_false,
                add_elementAt] at h
              cases hbe : buildElement t v with
              | error e => rw [hbe] at h; cases h
              | ok child =>
                rw [hbe] at h
                simp only [nodeAt] at h
                cases h
                refine ⟨extends_appendAt child [] tree, Or.inr ?_⟩
                simp only [List.nil_append, nodeAt]
                rw [ElemList.get?_length_none tree.children]
            | cons s ir' =>
              simp only [List.length_cons, gt_iff_lt, Nat.succ_pos, if_true] at h
              cases hrec : find_element_rev (s :: ir') tree none with
              | error e => rw [hrec] at h; cases h
              | ok pr =>
                obtain ⟨t'', pa⟩ := pr
                rw [hrec] at h
                simp only [add_elementAt] at h
                cases hbe : buildElement t v with
                | error e => rw [hbe] at h; cases h
                | ok child =>
                  rw [hbe] at h
                  simp only [] at h
                  cases hna : nodeAt t'' pa with
                  | none => rw [hna] at h; cases h
                  | some parent =>
                    rw [hna] at h
                    cases h
                    obtain ⟨hext, hdich⟩ := ih tree none t'' pa hrec
                    refine ⟨extends_trans hext (extends_appendAt child pa t''), Or.inr ?_⟩
                    rw [nodeAt_append tree pa [parent.children.length]]
                    rcases hdich with rfl | hnone
                    · rw [hna]
                      simp only [Option.bind, nodeAt]
                      rw [ElemList.get?_length_none parent.children]
                    · rw [hnone]
                      rfl

/-- C9 (confirmed).  A completed find_element call never deletes a node and
never mutates an existing node's tag, attribute values or text: the
resulting tree extends the input tree (all old nodes at their old
addresses, child lists grown only at the end), and the call either
returned with the tree unchanged (found) or returned a node at an address
that did not exist before (freshly appended).  This holds for every call
in any sequence of locate-or-create calls on a row's tree. -/
theorem C9_no_mutation (element : List PyStr) (tree : Elem) (v : Option PyStr)
    (t' : Elem) (a : List Nat)
    (h : find_element element tree v = .ok (t', a)) :
    Extends tree t' ∧ (t' = tree ∨ nodeAt tree a = none) :=
  find_element_rev_extends element.reverse tree v t' a h

/-- Witness for C9: materialising /a into the fresh root only appends. -/
theorem C9_witness :
    Extends root0
        (.mk rootTag [] none (.cons (.mk "a".data [] (some "x".data) .nil) .nil))
      ∧ ((Elem.mk rootTag [] none
            (.cons (.mk "a".data [] (some "x".data) .nil) .nil)) = root0
          ∨ nodeAt root0 [0] = none) :=
  C9_no_mutation ["a".data] root0 (some "x".data)
    (.mk rootTag [] none (.cons (.mk "a".data [] (some "x".data) .nil) .nil)) [0] rfl

/-! ### Tag chains along addresses: search characterised, idempotence -/

theorem findPath_nil_toks (l : ElemList) : findPath [] l = none := by
  cases l <;> rfl

